import Mathlib

/-!
Verification of the action-reference scanner and update-reconciliation logic of
`github-actions-version-updater` (`src/main.py`), against its natural-language
specification.  The Python code is shallowly embedded: YAML documents become a
tagged inductive, Python string operations (`str.split`, `str.replace`) are
re-implemented over `List Char` with Python's exact semantics, the per-reference
loop of `GitHubActionsVersionUpdater.run` becomes a fold over the extracted
reference list, and the orchestration / exit-code logic becomes a total function
on an explicit run environment.
-/

namespace ActionUpdater

/-! ## Python string primitives

`leadsWith p s` decides whether `p` is an initial segment of `s`,
`splitOnChar sep s` is Python's `s.split(sep)` for a one-character separator,
`replAux old new s 0` is Python's `s.replace(old, new)` (left-to-right,
non-overlapping), `occAux old s 0` counts the occurrences that `replace`
rewrites, and `containsSub old s` is Python's `old in s` for nonempty `old`.
All are structurally recursive so that the kernel can evaluate them. -/

def leadsWith : List Char → List Char → Bool
  | [], _ => true
  | _ :: _, [] => false
  | a :: as, b :: bs => a == b && leadsWith as bs

def splitOnChar (sep : Char) : List Char → List (List Char)
  | [] => [[]]
  | c :: rest =>
    if c = sep then [] :: splitOnChar sep rest
    else
      match splitOnChar sep rest with
      | [] => [[c]]
      | h :: t => (c :: h) :: t

def replAux (old new : List Char) : List Char → Nat → List Char
  | [], _ => []
  | _ :: rest, k + 1 => replAux old new rest k
  | c :: rest, 0 =>
    if leadsWith old (c :: rest) && !old.isEmpty then
      new ++ replAux old new rest (old.length - 1)
    else
      c :: replAux old new rest 0

def occAux (old : List Char) : List Char → Nat → Nat
  | [], _ => 0
  | _ :: rest, k + 1 => occAux old rest k
  | c :: rest, 0 =>
    if leadsWith old (c :: rest) && !old.isEmpty then
      1 + occAux old rest (old.length - 1)
    else
      occAux old rest 0

def containsSub (old : List Char) : List Char → Bool
  | [] => old.isEmpty
  | c :: rest => leadsWith old (c :: rest) || containsSub old rest

/-- Python `text.replace(old, new)`, lifted to `String`. -/
def strReplace (text old new : String) : String :=
  String.mk (replAux old.data new.data text.data 0)

/-- Python `action.split("@")` destructured as
`action_repository, version = action.split("@")`: `some` exactly when the split
yields two parts (one `"@"` in the string), `none` is the `ValueError` case. -/
def splitRef (s : String) : Option (String × String) :=
  match splitOnChar '@' s.data with
  | [l₁, l₂] => some (String.mk l₁, String.mk l₂)
  | _ => none

/-! ## Parsed workflow documents and the Reference Extractor

`Yaml` is the closed, tagged-variant representation of a value produced by
`yaml.load`: a string scalar, any non-string scalar (`other`), a mapping, or a
sequence.  `get_all_actions` embeds
`GitHubActionsVersionUpdater.get_all_actions` (src/main.py lines 203-214): in a
mapping, an entry whose key is the recognized key `"uses"` yields its value
(whatever its type), any other entry whose value is a mapping or a sequence is
recursed into; in a sequence every element is recursed into. -/

inductive Yaml where
  | str (s : String)
  | other
  | map (es : List (String × Yaml))
  | seq (xs : List Yaml)

/-- Python's `isinstance(value, dict) or isinstance(value, list)` check. -/
def isContainer : Yaml → Bool
  | .map _ => true
  | .seq _ => true
  | _ => false

mutual

def get_all_actions : Yaml → List Yaml
  | .str _ => []
  | .other => []
  | .map es => actionsOfEntries es
  | .seq xs => actionsOfSeq xs

def actionsOfEntries : List (String × Yaml) → List Yaml
  | [] => []
  | (k, v) :: rest =>
    (if k = "uses" then [v]
     else if isContainer v then get_all_actions v
     else []) ++ actionsOfEntries rest

def actionsOfSeq : List Yaml → List Yaml
  | [] => []
  | x :: rest => get_all_actions x ++ actionsOfSeq rest

end

/-- Value `v` is stored under a key `"uses"` somewhere in `d`, at any nesting
depth under any combination of mappings and sequences (descending into every
mapping value and every sequence element). -/
inductive HasUses : Yaml → Yaml → Prop where
  | here {es : List (String × Yaml)} {v : Yaml} :
      ("uses", v) ∈ es → HasUses (.map es) v
  | inMap {es : List (String × Yaml)} {k : String} {w v : Yaml} :
      (k, w) ∈ es → HasUses w v → HasUses (.map es) v
  | inSeq {xs : List Yaml} {x v : Yaml} :
      x ∈ xs → HasUses x v → HasUses (.seq xs) v

/-- Value `v` is stored under a key `"uses"` in `d` and reachable by the code's
actual traversal: recursion descends into a mapping value only when its key is
not `"uses"`, and into every sequence element. -/
inductive ExtractedUses : Yaml → Yaml → Prop where
  | here {es : List (String × Yaml)} {v : Yaml} :
      ("uses", v) ∈ es → ExtractedUses (.map es) v
  | inMap {es : List (String × Yaml)} {k : String} {w v : Yaml} :
      (k, w) ∈ es → k ≠ "uses" → ExtractedUses w v → ExtractedUses (.map es) v
  | inSeq {xs : List Yaml} {x v : Yaml} :
      x ∈ xs → ExtractedUses x v → ExtractedUses (.seq xs) v

/-! ## Release Resolver and the Reconciler

`Release` is the metadata dictionary built by
`GitHubActionsVersionUpdater.get_latest_release` from a status-200 response
(src/main.py lines 159-184).  A `Resolver` maps a repository identifier to
`some` release or `none`; `none` embeds both the non-200 ("no release found")
case, in which the Python function returns the falsy `{}`.

The reconciliation loop (src/main.py lines 64-106) is embedded as a fold:
`processRef` is one iteration of `for action in all_action_set` for a string
`action`; `refStep` adds the non-string case, whose `action.split("@")` raises
`AttributeError` — not caught by the `except ValueError` handler, so it
escapes to the per-document `except Exception` handler (line 112);
`reconcileRefs` runs the loop, stopping at the first such escape;
`reconcileDoc` is the whole per-document body: subtract the ignore set
(line 66: `all_action_set.difference_update(ignore_actions)`, literal string
membership), run the loop, and write the file back exactly when
`workflow_updated` is true and no exception escaped.

The state records the document text, the `workflow_updated` flag, the global
`pull_request_body_lines` set, and — as instrumentation for "no remote lookup
happens" claims — the list of repository identifiers passed to
`get_latest_release`, in call order. -/

structure Release where
  published_at : String
  html_url : String
  tag_name : String
  body : String
deriving DecidableEq

def Resolver := String → Option Release

/-- `GitHubActionsVersionUpdater.generate_pull_request_body_line`
(src/main.py lines 148-157), with `github_url = "https://github.com/"`. -/
def pull_request_body_line (action_repository : String) (latest_release : Release) : String :=
  "* **[" ++ action_repository ++ "](" ++ "https://github.com/" ++ action_repository ++ ")** " ++
    "published a new release " ++
    "[" ++ latest_release.tag_name ++ "](" ++ latest_release.html_url ++ ") " ++
    "on " ++ latest_release.published_at ++ "\n"

structure RecState where
  text : String
  changed : Bool
  notes : Finset String
  lookups : List String
deriving DecidableEq

/-- One iteration of the reference loop for a string reference `action`:
split on `"@"` (skip with a warning on `ValueError`), call the resolver (skip
when falsy), rebuild `updated_action`, and if it differs from `action`,
record a pull-request body line, replace every occurrence of `action` in the
current text, and set the `workflow_updated` flag. -/
def processRef (resolve : Resolver) (st : RecState) (action : String) : RecState :=
  match splitRef action with
  | none => st
  | some (action_repository, _version) =>
    let st1 : RecState := { st with lookups := st.lookups ++ [action_repository] }
    match resolve action_repository with
    | none => st1
    | some latest_release =>
      let updated_action := action_repository ++ "@" ++ latest_release.tag_name
      if action = updated_action then st1
      else
        { st1 with
          text := strReplace st1.text action updated_action
          changed := true
          notes := insert (pull_request_body_line action_repository latest_release) st1.notes }

/-- One iteration for an arbitrary extracted value: a non-string value has no
`split` method, so the iteration raises (`AttributeError`) outside the
`except ValueError` handler; `.error` carries the state accumulated so far
(the shared note set and the lookups already performed persist). -/
def refStep (resolve : Resolver) (st : RecState) (a : Yaml) : Except RecState RecState :=
  match a with
  | .str s => .ok (processRef resolve st s)
  | _ => .error st

/-- The whole reference loop; the Bool is `true` when an exception escaped to
the per-document handler (document skipped). -/
def reconcileRefs (resolve : Resolver) : List Yaml → RecState → RecState × Bool
  | [], st => (st, false)
  | a :: rest, st =>
    match refStep resolve st a with
    | .ok st1 => reconcileRefs resolve rest st1
    | .error st1 => (st1, true)

/-- `all_action_set.difference_update(ignore_actions)`: the ignore set holds
full reference strings and is removed by literal equality; non-string values
never equal a configured string. -/
def ignoreFilter (ignore : List String) (refs : List Yaml) : List Yaml :=
  refs.filter fun a =>
    match a with
    | .str s => !ignore.contains s
    | _ => true

structure DocResult where
  newText : Option String
  changed : Bool
  notes : Finset String
  lookups : List String
  aborted : Bool
deriving DecidableEq

/-- The per-document body of `run` (src/main.py lines 56-113) given the
document text and its extracted, deduplicated reference list: subtract the
ignore set, run the loop; `newText = some t` exactly when the file is written
back (with content `t`), which happens when `workflow_updated` is set and no
exception escaped. -/
def reconcileDoc (resolve : Resolver) (text : String) (refs : List Yaml)
    (ignore : List String) : DocResult :=
  let r := reconcileRefs resolve (ignoreFilter ignore refs) ⟨text, false, ∅, []⟩
  { newText := if r.2 then none else if r.1.changed then some r.1.text else none
    changed := r.1.changed
    notes := r.1.notes
    lookups := r.1.lookups
    aborted := r.2 }

/-- Decision of one loop iteration, as a function of the reference alone:
`some (repo, rel)` iff the iteration rewrites (well-formed split, resolver
success, and a textually different updated reference). -/
def updatesRef (resolve : Resolver) : Yaml → Option (String × Release)
  | .str s =>
    match splitRef s with
    | none => none
    | some (repo, _) =>
      match resolve repo with
      | none => none
      | some rel =>
        if s = repo ++ "@" ++ rel.tag_name then none else some (repo, rel)
  | .other => none
  | .map _ => none
  | .seq _ => none

/-- The repository identifiers a reference sends to the resolver:
exactly one lookup for every reference whose split succeeds. -/
def refLookups : Yaml → List String
  | .str s =>
    match splitRef s with
    | none => []
    | some (repo, _) => [repo]
  | .other => []
  | .map _ => []
  | .seq _ => []

/-- Repository identifiers of the references the loop rewrites. -/
def upgradedRepos (resolve : Resolver) (refs : List Yaml) : List String :=
  (refs.filterMap (updatesRef resolve)).map Prod.fst

/-- The pull-request body line an upgraded repository contributes. -/
def noteFor (resolve : Resolver) (repo : String) : String :=
  match resolve repo with
  | some rel => pull_request_body_line repo rel
  | none => ""

/-! ## Update Orchestrator (src/main.py lines 36-146)

The run: list workflows (exit 1 on a non-200 listing response before any
document is touched), exit 0 with a warning when no workflow exists, process
every document (per-document failures are caught and skipped), then consult
the working tree and either report up-to-date (exit 0), open a pull request
(normal completion, process exit 0), or — when updates exist but pull
requests are disabled — exit 1. -/

/-- One run's view of one workflow document: its path, raw text, extracted
deduplicated reference list (in set-iteration order), and whether reading and
`yaml.load` succeeded (`parseOk = false` embeds the per-document exception
raised before the reference loop). -/
structure WorkflowDoc where
  path : String
  text : String
  refs : List Yaml
  parseOk : Bool

/-- Per-document step of the orchestrator loop. -/
def processDoc (resolve : Resolver) (ignore : List String) (d : WorkflowDoc) :
    DocResult :=
  if d.parseOk then reconcileDoc resolve d.text d.refs ignore
  else ⟨none, false, ∅, [], true⟩

/-- Modelled from the spec: `git_has_changes` (imported from `src/run_git.py`,
which is not part of the sources) — "check whether the working tree has
uncommitted changes"; a document contributes a working-tree change exactly
when it was written back with content different from the original. -/
def changedDoc (resolve : Resolver) (ignore : List String) (d : WorkflowDoc) :
    Bool :=
  match (processDoc resolve ignore d).newText with
  | some t => t != d.text
  | none => false

inductive RunOutcome where
  | exit0
  | exit1
deriving DecidableEq

/-- The control flow of `GitHubActionsVersionUpdater.run` plus its
`__main__` harness, as a function of the listing status, the documents (one
per listed path), and the skip-pull-request flag.  The second component is
the list of processed document paths.  Branch creation, commit and
pull-request creation are external collaborators modelled from the spec as
succeeding (a normal return of `run`, process exit code 0). -/
def runModel (resolve : Resolver) (ignore : List String) (skipPR : Bool)
    (listingStatus : Nat) (docs : List WorkflowDoc) : RunOutcome × List String :=
  if listingStatus = 200 then
    if docs.isEmpty then (.exit0, [])
    else
      let processed := docs.map fun d => d.path
      if docs.any (changedDoc resolve ignore) then
        if skipPR then (.exit1, processed) else (.exit0, processed)
      else (.exit0, processed)
  else (.exit1, [])

/-! ## Workflow listing (src/main.py lines 186-201)

`get_workflow_paths` evaluated against a JSON response body.  `subscript`
is Python's `value[key]` (`none` embeds the `TypeError`/`KeyError` raise),
`pyIter` is Python's iteration protocol on a JSON value (lists yield
elements, dicts yield their keys, strings yield their characters; other
scalars raise), and `collectPaths` is the comprehension
`[workflow["path"] for workflow in ...]`. -/

inductive Json where
  | null
  | bool (b : Bool)
  | num (n : Int)
  | str (s : String)
  | arr (xs : List Json)
  | obj (fields : List (String × Json))

def jsonField : List (String × Json) → String → Option Json
  | [], _ => none
  | (k, v) :: rest, key => if k = key then some v else jsonField rest key

def subscript : Json → String → Option Json
  | .obj fs, key => jsonField fs key
  | _, _ => none

def pyIter : Json → Option (List Json)
  | .arr xs => some xs
  | .obj fs => some (fs.map fun p => Json.str p.1)
  | .str s => some (s.data.map fun c => Json.str (String.mk [c]))
  | _ => none

def collectPaths : List Json → Option (List Json)
  | [] => some []
  | w :: rest =>
    match subscript w "path" with
    | none => none
    | some p =>
      match collectPaths rest with
      | none => none
      | some ps => some (p :: ps)

inductive ListingResult where
  | paths (ps : List Json)
  | fatal
  | unhandled

/-- `GitHubActionsVersionUpdater.get_workflow_paths`: on a 200 response,
evaluate `response.json()["workflows"]`, iterate it, and take each item's
`"path"`; any raise in that expression is unhandled.  On any other status,
log an error and `raise SystemExit(1)` (`fatal`). -/
def get_workflow_paths (status : Nat) (body : Json) : ListingResult :=
  if status = 200 then
    match subscript body "workflows" with
    | none => .unhandled
    | some ws =>
      match pyIter ws with
      | none => .unhandled
      | some items =>
        match collectPaths items with
        | none => .unhandled
        | some ps => .paths ps
  else .fatal


/-! ## Concrete instances used in witnesses and counterexamples -/

/-- A latest release with tag `v2` (for repository `a/b`). -/
def relV2 : Release :=
  ⟨"2025-01-01", "https://github.com/a/b/releases/tag/v2", "v2", ""⟩

/-- Resolver under which repository `a/b` has latest tag `v2` and no other
repository has a release. -/
def resolveAB : Resolver := fun repo => if repo = "a/b" then some relV2 else none

/-- A latest release with tag `v2` (for repository `owner/repo`). -/
def relOR : Release :=
  ⟨"2025-02-02", "https://github.com/owner/repo/releases/tag/v2", "v2", ""⟩

/-- Resolver under which repository `owner/repo` has latest tag `v2` and no
other repository has a release. -/
def resolveOR : Resolver := fun repo => if repo = "owner/repo" then some relOR else none

/-! ### Lemmas about the string primitives -/

theorem leadsWith_iff (p : List Char) : ∀ s, leadsWith p s = true ↔ ∃ t, s = p ++ t := by
  induction p with
  | nil => intro s; simp [leadsWith]
  | cons a as ih =>
    intro s
    cases s with
    | nil => simp [leadsWith]
    | cons b bs =>
      simp only [leadsWith, Bool.and_eq_true, beq_iff_eq, ih bs, List.cons_append]
      constructor
      · rintro ⟨rfl, t, rfl⟩; exact ⟨t, rfl⟩
      · rintro ⟨t, h⟩
        obtain ⟨rfl, rfl⟩ : a = b ∧ bs = as ++ t := by
          have h1 := congrArg List.head? h
          have h2 := congrArg List.tail h
          simp at h1 h2
          exact ⟨h1.symm, h2⟩
        exact ⟨rfl, t, rfl⟩

theorem splitOnChar_ne_nil (sep : Char) : ∀ l, splitOnChar sep l ≠ [] := by
  intro l
  cases l with
  | nil => simp [splitOnChar]
  | cons c rest =>
    simp only [splitOnChar]
    by_cases h : c = sep
    · simp [h]
    · simp only [h, if_false]
      cases hs : splitOnChar sep rest <;> simp

theorem strData_append (a b : String) : (a ++ b).data = a.data ++ b.data := rfl

theorem splitOnChar_singleton (sep : Char) :
    ∀ l x, splitOnChar sep l = [x] → l = x := by
  intro l
  induction l with
  | nil =>
    intro x h
    simp only [splitOnChar] at h
    exact (List.cons_eq_cons.mp h).1
  | cons c rest ih =>
    intro x h
    simp only [splitOnChar] at h
    by_cases hc : c = sep
    · rw [if_pos hc] at h
      have := splitOnChar_ne_nil sep rest
      cases hs : splitOnChar sep rest with
      | nil => exact absurd hs this
      | cons a t => rw [hs] at h; simp at h
    · rw [if_neg hc] at h
      cases hs : splitOnChar sep rest with
      | nil => exact absurd hs (splitOnChar_ne_nil sep rest)
      | cons a t =>
        rw [hs] at h
        obtain ⟨h1, h2⟩ : c :: a = x ∧ t = [] := by
          constructor
          · exact (List.cons_eq_cons.mp h).1
          · exact (List.cons_eq_cons.mp h).2
        subst h2
        have : rest = a := ih a hs
        subst this
        exact h1

theorem splitOnChar_pair (sep : Char) :
    ∀ l x y, splitOnChar sep l = [x, y] → l = x ++ sep :: y := by
  intro l
  induction l with
  | nil => intro x y h; simp [splitOnChar] at h
  | cons c rest ih =>
    intro x y h
    simp only [splitOnChar] at h
    by_cases hc : c = sep
    · rw [if_pos hc] at h
      obtain ⟨h1, h2⟩ := List.cons_eq_cons.mp h
      have h3 : rest = y := splitOnChar_singleton sep rest y h2
      subst h3
      rw [← h1, hc]
      rfl
    · rw [if_neg hc] at h
      cases hs : splitOnChar sep rest with
      | nil => exact absurd hs (splitOnChar_ne_nil sep rest)
      | cons a t =>
        rw [hs] at h
        obtain ⟨h1, h2⟩ := List.cons_eq_cons.mp h
        subst h1
        have : rest = a ++ sep :: y := ih a y (by rw [hs, h2])
        rw [this]
        simp

theorem splitRef_append {s r v : String} (h : splitRef s = some (r, v)) :
    s = r ++ "@" ++ v ∧ s.data = r.data ++ '@' :: v.data := by
  unfold splitRef at h
  cases hs : splitOnChar '@' s.data with
  | nil => rw [hs] at h; exact absurd h (by simp)
  | cons a t =>
    rw [hs] at h
    cases t with
    | nil => rw [hs] at *; simp at h
    | cons b t2 =>
      cases t2 with
      | nil =>
        simp only [Option.some.injEq, Prod.mk.injEq] at h
        obtain ⟨hr, hv⟩ := h
        have hdata : s.data = a ++ '@' :: b := splitOnChar_pair '@' s.data a b hs
        have hra : r.data = a := by rw [← hr]
        have hvb : v.data = b := by rw [← hv]
        constructor
        · apply String.ext
          have happ : (r ++ "@" ++ v).data = r.data ++ '@' :: v.data := by
            rw [strData_append, strData_append]
            simp
          rw [hdata, happ, hra, hvb]
        · rw [hdata, hra, hvb]
      | cons _ _ => simp at h

theorem splitRef_ne_empty {s r v : String} (h : splitRef s = some (r, v)) :
    s.data ≠ [] := by
  rw [(splitRef_append h).2]
  simp

theorem replAux_skip (old new : List Char) :
    ∀ (s : List Char) (k : Nat), replAux old new s k = replAux old new (s.drop k) 0 := by
  intro s
  induction s with
  | nil => intro k; cases k <;> rfl
  | cons c rest ih =>
    intro k
    cases k with
    | zero => rfl
    | succ k =>
      show replAux old new rest k = _
      rw [List.drop_succ_cons]
      exact ih k

theorem occAux_skip (old : List Char) :
    ∀ (s : List Char) (k : Nat), occAux old s k = occAux old (s.drop k) 0 := by
  intro s
  induction s with
  | nil => intro k; cases k <;> rfl
  | cons c rest ih =>
    intro k
    cases k with
    | zero => rfl
    | succ k =>
      show occAux old rest k = _
      rw [List.drop_succ_cons]
      exact ih k

theorem leadsWith_self_append (p t : List Char) : leadsWith p (p ++ t) = true :=
  (leadsWith_iff p (p ++ t)).mpr ⟨t, rfl⟩

theorem replAux_head {old : List Char} (hold : old ≠ []) (new t : List Char) :
    replAux old new (old ++ t) 0 = new ++ replAux old new t 0 := by
  cases old with
  | nil => exact absurd rfl hold
  | cons o os =>
    have hlead : leadsWith (o :: os) (o :: (os ++ t)) = true := by
      have := leadsWith_self_append (o :: os) t
      simpa using this
    show replAux (o :: os) new (o :: (os ++ t)) 0 = _
    rw [show replAux (o :: os) new (o :: (os ++ t)) 0 =
        new ++ replAux (o :: os) new (os ++ t) ((o :: os).length - 1) by
      simp [replAux, hlead]]
    rw [replAux_skip]
    congr 1
    simp

theorem occAux_head {old : List Char} (hold : old ≠ []) (t : List Char) :
    occAux old (old ++ t) 0 = 1 + occAux old t 0 := by
  cases old with
  | nil => exact absurd rfl hold
  | cons o os =>
    have hlead : leadsWith (o :: os) (o :: (os ++ t)) = true := by
      have := leadsWith_self_append (o :: os) t
      simpa using this
    show occAux (o :: os) (o :: (os ++ t)) 0 = _
    rw [show occAux (o :: os) (o :: (os ++ t)) 0 =
        1 + occAux (o :: os) (os ++ t) ((o :: os).length - 1) by
      simp [occAux, hlead]]
    rw [occAux_skip]
    congr 1
    simp

theorem replAux_no_head {old : List Char} {c : Char} {rest : List Char}
    (h : leadsWith old (c :: rest) = false) (new : List Char) :
    replAux old new (c :: rest) 0 = c :: replAux old new rest 0 := by
  simp [replAux, h]

theorem occAux_no_head {old : List Char} {c : Char} {rest : List Char}
    (h : leadsWith old (c :: rest) = false) :
    occAux old (c :: rest) 0 = occAux old rest 0 := by
  simp [occAux, h]

theorem occAux_pos {old : List Char} (hold : old ≠ []) :
    ∀ s, containsSub old s = true → 1 ≤ occAux old s 0 := by
  intro s
  induction s with
  | nil =>
    intro h
    simp [containsSub, List.isEmpty_iff] at h
    exact absurd h hold
  | cons c rest ih =>
    intro h
    by_cases hl : leadsWith old (c :: rest) = true
    · obtain ⟨t, he⟩ := (leadsWith_iff old (c :: rest)).mp hl
      rw [he, occAux_head hold]
      omega
    · have hl' : leadsWith old (c :: rest) = false := by
        cases hlv : leadsWith old (c :: rest)
        · rfl
        · exact absurd hlv hl
      rw [occAux_no_head hl']
      apply ih
      simp [containsSub, hl'] at h
      exact h

theorem repl_length {old new : List Char} (hold : old ≠ []) :
    ∀ s, (replAux old new s 0).length + occAux old s 0 * old.length
          = s.length + occAux old s 0 * new.length := by
  suffices H : ∀ n s, List.length s = n →
      (replAux old new s 0).length + occAux old s 0 * old.length
        = s.length + occAux old s 0 * new.length by
    intro s; exact H s.length s rfl
  intro n
  induction n using Nat.strong_induction_on with
  | _ n ih =>
    intro s hn
    cases s with
    | nil => simp [replAux, occAux]
    | cons c rest =>
      by_cases hl : leadsWith old (c :: rest) = true
      · obtain ⟨t, he⟩ := (leadsWith_iff old (c :: rest)).mp hl
        rw [he, replAux_head hold, occAux_head hold]
        have htlen : t.length < n := by
          have : (old ++ t).length = n := by rw [← he, hn]
          rw [List.length_append] at this
          have holdlen : 1 ≤ old.length := by
            cases old with
            | nil => exact absurd rfl hold
            | cons _ _ => simp
          omega
        have iht := ih t.length htlen t rfl
        simp only [List.length_append, Nat.add_mul, Nat.one_mul]
        omega
      · have hl' : leadsWith old (c :: rest) = false := by
          cases hlv : leadsWith old (c :: rest)
          · rfl
          · exact absurd hlv hl
        rw [replAux_no_head hl', occAux_no_head hl']
        have hrlen : rest.length < n := by
          rw [← hn]; simp
        have ihr := ih rest.length hrlen rest rfl
        simp only [List.length_cons]
        omega

theorem replace_ne_of_contains {old new : List Char} (hold : old ≠ [])
    (hne : new ≠ old) :
    ∀ s, containsSub old s = true → replAux old new s 0 ≠ s := by
  suffices H : ∀ n s, List.length s = n →
      containsSub old s = true → replAux old new s 0 ≠ s by
    intro s; exact H s.length s rfl
  intro n
  induction n using Nat.strong_induction_on with
  | _ n ih =>
    intro s hn
    cases s with
    | nil =>
      intro h
      simp [containsSub, List.isEmpty_iff] at h
      exact absurd h hold
    | cons c rest =>
      intro h heq
      by_cases hl : leadsWith old (c :: rest) = true
      · obtain ⟨t, he⟩ := (leadsWith_iff old (c :: rest)).mp hl
        rw [he] at heq
        by_cases hlen : new.length = old.length
        · have heq2 := heq
          rw [replAux_head hold] at heq2
          have := List.append_inj_left heq2 hlen
          exact hne this
        · have hocc : 1 ≤ occAux old (old ++ t) 0 := by
            rw [occAux_head hold]; omega
          have hlength := @repl_length old new hold (old ++ t)
          rw [heq] at hlength
          have : occAux old (old ++ t) 0 * old.length
              = occAux old (old ++ t) 0 * new.length := by omega
          have := Nat.eq_of_mul_eq_mul_left (by omega) this
          exact hlen this.symm
      · have hl' : leadsWith old (c :: rest) = false := by
          cases hlv : leadsWith old (c :: rest)
          · rfl
          · exact absurd hlv hl
        rw [replAux_no_head hl'] at heq
        have heq' : replAux old new rest 0 = rest := (List.cons_eq_cons.mp heq).2
        have hcr : containsSub old rest = true := by
          simp [containsSub, hl'] at h
          exact h
        have hrlen : rest.length < n := by rw [← hn]; simp
        exact ih rest.length hrlen rest rfl hcr heq'

theorem extracted_hasUses {d v : Yaml} (h : ExtractedUses d v) : HasUses d v := by
  induction h with
  | here hmem => exact HasUses.here hmem
  | inMap hmem _ _ ih => exact HasUses.inMap hmem ih
  | inSeq hmem _ ih => exact HasUses.inSeq hmem ih

theorem sizeOf_val_lt {es : List (String × Yaml)} {k : String} {w : Yaml}
    (h : (k, w) ∈ es) : sizeOf w < sizeOf (Yaml.map es) := by
  have h1 := List.sizeOf_lt_of_mem h
  simp only [Prod.mk.sizeOf_spec, Yaml.map.sizeOf_spec] at *
  omega

theorem sizeOf_elem_lt {xs : List Yaml} {x : Yaml} (h : x ∈ xs) :
    sizeOf x < sizeOf (Yaml.seq xs) := by
  have h1 := List.sizeOf_lt_of_mem h
  simp only [Yaml.seq.sizeOf_spec] at *
  omega

theorem containerBranch_eq_gaa (w : Yaml) :
    (if isContainer w then get_all_actions w else []) = get_all_actions w := by
  cases w <;> rfl

theorem actionsOfSeq_mem (xs : List Yaml)
    (IH : ∀ x ∈ xs, ∀ v, (v ∈ get_all_actions x ↔ ExtractedUses x v)) (v : Yaml) :
    v ∈ actionsOfSeq xs ↔ ∃ x, x ∈ xs ∧ ExtractedUses x v := by
  induction xs with
  | nil => simp [actionsOfSeq]
  | cons x rest ihr =>
    simp only [actionsOfSeq, List.mem_append]
    rw [IH x (by simp) v, ihr (fun y hy v => IH y (by simp [hy]) v)]
    constructor
    · rintro (h | ⟨y, hy, hv⟩)
      · exact ⟨x, by simp, h⟩
      · exact ⟨y, by simp [hy], hv⟩
    · rintro ⟨y, hy, hv⟩
      rcases List.mem_cons.mp hy with rfl | hy2
      · exact Or.inl hv
      · exact Or.inr ⟨y, hy2, hv⟩

theorem actionsOfEntries_mem (es : List (String × Yaml))
    (IH : ∀ kw ∈ es, ∀ v, (v ∈ get_all_actions kw.2 ↔ ExtractedUses kw.2 v)) (v : Yaml) :
    v ∈ actionsOfEntries es ↔
      ∃ k w, (k, w) ∈ es ∧
        ((k = "uses" ∧ w = v) ∨ (k ≠ "uses" ∧ ExtractedUses w v)) := by
  induction es with
  | nil =>
    refine iff_of_false (fun h => ?_) (fun h => ?_)
    · rw [show actionsOfEntries [] = [] from rfl] at h
      exact absurd h (List.not_mem_nil v)
    · obtain ⟨k, w, hmem, _⟩ := h
      exact absurd hmem (List.not_mem_nil _)
  | cons kw rest ihr =>
    obtain ⟨k, w⟩ := kw
    rw [show actionsOfEntries ((k, w) :: rest) =
        (if k = "uses" then [w]
         else if isContainer w then get_all_actions w
         else []) ++ actionsOfEntries rest from rfl]
    rw [List.mem_append]
    rw [ihr (fun y hy v => IH y (by simp [hy]) v)]
    have hhead : v ∈ (if k = "uses" then [w]
        else if isContainer w then get_all_actions w
        else []) ↔
        ((k = "uses" ∧ w = v) ∨ (k ≠ "uses" ∧ ExtractedUses w v)) := by
      by_cases hk : k = "uses"
      · simp only [if_pos hk, List.mem_singleton]
        constructor
        · intro hv; exact Or.inl ⟨hk, hv.symm⟩
        · rintro (⟨_, rfl⟩ | ⟨hne, _⟩)
          · rfl
          · exact absurd hk hne
      · rw [if_neg hk, containerBranch_eq_gaa w, IH (k, w) (by simp) v]
        constructor
        · intro hv; exact Or.inr ⟨hk, hv⟩
        · rintro (⟨hk', _⟩ | ⟨_, hv⟩)
          · exact absurd hk' hk
          · exact hv
    rw [hhead]
    constructor
    · rintro (h | ⟨k', w', hmem, hcase⟩)
      · exact ⟨k, w, by simp, h⟩
      · exact ⟨k', w', by simp [hmem], hcase⟩
    · rintro ⟨k', w', hmem, hcase⟩
      rcases List.mem_cons.mp hmem with heq | hmem2
      · have hkw : k' = k ∧ w' = w := by
          rw [Prod.mk.injEq] at heq
          exact heq
        obtain ⟨rfl, rfl⟩ := hkw
        exact Or.inl hcase
      · exact Or.inr ⟨k', w', hmem2, hcase⟩

/-- Characterization of the Reference Extractor: it yields exactly the values
reachable by its traversal (`ExtractedUses`). -/
theorem mem_get_all_actions (d : Yaml) :
    ∀ v, v ∈ get_all_actions d ↔ ExtractedUses d v := by
  suffices H : ∀ n d, sizeOf d ≤ n →
      ∀ v, (v ∈ get_all_actions d ↔ ExtractedUses d v) from
    fun v => H (sizeOf d) d le_rfl v
  intro n
  induction n using Nat.strong_induction_on with
  | _ n ih =>
    intro d hd v
    match d with
    | .str s =>
      constructor
      · intro h; exact absurd h (by simp [get_all_actions])
      · intro h; cases h
    | .other =>
      constructor
      · intro h; exact absurd h (by simp [get_all_actions])
      · intro h; cases h
    | .map es =>
      show v ∈ actionsOfEntries es ↔ _
      rw [actionsOfEntries_mem es (fun kw hkw v =>
        ih (sizeOf kw.2) (lt_of_lt_of_le (by
          obtain ⟨k, w⟩ := kw
          exact sizeOf_val_lt hkw) hd) kw.2 le_rfl v)]
      constructor
      · rintro ⟨k, w, hmem, (⟨rfl, rfl⟩ | ⟨hne, hv⟩)⟩
        · exact ExtractedUses.here hmem
        · exact ExtractedUses.inMap hmem hne hv
      · intro h
        cases h with
        | here hmem => exact ⟨"uses", v, hmem, Or.inl ⟨rfl, rfl⟩⟩
        | inMap hmem hne hv => exact ⟨_, _, hmem, Or.inr ⟨hne, hv⟩⟩
    | .seq xs =>
      show v ∈ actionsOfSeq xs ↔ _
      rw [actionsOfSeq_mem xs (fun x hx v =>
        ih (sizeOf x) (lt_of_lt_of_le (sizeOf_elem_lt hx) hd) x le_rfl v)]
      constructor
      · rintro ⟨x, hx, hv⟩
        exact ExtractedUses.inSeq hx hv
      · intro h
        cases h with
        | inSeq hx hv => exact ⟨_, hx, hv⟩

/-- A document with no `"uses"` key anywhere yields an empty extraction. -/
theorem gaa_nil_of_no_uses {d : Yaml} (h : ∀ v, ¬ HasUses d v) :
    get_all_actions d = [] := by
  rw [List.eq_nil_iff_forall_not_mem]
  intro v hv
  exact h v (extracted_hasUses ((mem_get_all_actions d v).mp hv))

/-- Python `replace` on Strings changes the text whenever the pattern occurs in
it and the replacement differs from the pattern. -/
theorem strReplace_ne {text old new : String} (hold : old.data ≠ [])
    (hne : new ≠ old) (hocc : containsSub old.data text.data = true) :
    strReplace text old new ≠ text := by
  intro h
  have : (strReplace text old new).data = text.data := by rw [h]
  have hdata : replAux old.data new.data text.data 0 = text.data := this
  have hnew : new.data ≠ old.data := fun hd => hne (String.ext hd)
  exact replace_ne_of_contains hold hnew text.data hocc hdata

/-! ### Characterization of one loop iteration -/

theorem updatesRef_str_eq (resolve : Resolver) (s : String) :
    updatesRef resolve (Yaml.str s) =
      match splitRef s with
      | none => none
      | some (repo, _) =>
        match resolve repo with
        | none => none
        | some rel =>
          if s = repo ++ "@" ++ rel.tag_name then none else some (repo, rel) := rfl

theorem updatesRef_split {resolve : Resolver} {s repo : String} {rel : Release}
    (h : updatesRef resolve (Yaml.str s) = some (repo, rel)) :
    ∃ ver, splitRef s = some (repo, ver) ∧ resolve repo = some rel ∧
      s ≠ repo ++ "@" ++ rel.tag_name := by
  rw [updatesRef_str_eq] at h
  cases hs : splitRef s with
  | none =>
    simp only [hs] at h
    exact absurd h (by simp)
  | some rv =>
    obtain ⟨repo', ver⟩ := rv
    simp only [hs] at h
    cases hr : resolve repo' with
    | none =>
      simp only [hr] at h
      exact absurd h (by simp)
    | some rel' =>
      simp only [hr] at h
      by_cases heq : s = repo' ++ "@" ++ rel'.tag_name
      · rw [if_pos heq] at h; exact absurd h (by simp)
      · rw [if_neg heq] at h
        have h2 : repo' = repo ∧ rel' = rel := by
          have := Option.some.inj h
          rw [Prod.mk.injEq] at this
          exact this
        obtain ⟨rfl, rfl⟩ := h2
        exact ⟨ver, rfl, hr, heq⟩

theorem updatesRef_resolve {resolve : Resolver} {a : Yaml} {repo : String}
    {rel : Release} (h : updatesRef resolve a = some (repo, rel)) :
    resolve repo = some rel := by
  cases a with
  | str s =>
    obtain ⟨ver, _, hr, _⟩ := updatesRef_split h
    exact hr
  | other => exact absurd h (by simp [updatesRef])
  | map es => exact absurd h (by simp [updatesRef])
  | seq xs => exact absurd h (by simp [updatesRef])

theorem refLookups_str_eq (s : String) :
    refLookups (Yaml.str s) =
      match splitRef s with
      | none => []
      | some (repo, _) => [repo] := rfl

theorem processRef_eq (resolve : Resolver) (st : RecState) (s : String) :
    processRef resolve st s =
      match splitRef s with
      | none => st
      | some (repo, _) =>
        match resolve repo with
        | none => { st with lookups := st.lookups ++ [repo] }
        | some rel =>
          if s = repo ++ "@" ++ rel.tag_name then
            { st with lookups := st.lookups ++ [repo] }
          else
            { st with
              text := strReplace st.text s (repo ++ "@" ++ rel.tag_name)
              changed := true
              notes := insert (pull_request_body_line repo rel) st.notes
              lookups := st.lookups ++ [repo] } := by
  show (match splitRef s with
    | none => st
    | some (action_repository, _version) =>
      let st1 : RecState := { st with lookups := st.lookups ++ [action_repository] }
      match resolve action_repository with
      | none => st1
      | some latest_release =>
        let updated_action := action_repository ++ "@" ++ latest_release.tag_name
        if s = updated_action then st1
        else
          { st1 with
            text := strReplace st1.text s updated_action
            changed := true
            notes := insert (pull_request_body_line action_repository latest_release) st1.notes }) = _
  cases hs : splitRef s with
  | none => rfl
  | some rv =>
    obtain ⟨repo, ver⟩ := rv
    cases hr : resolve repo with
    | none => rfl
    | some rel =>
      by_cases heq : s = repo ++ "@" ++ rel.tag_name
      · simp only [if_pos heq]
      · simp only [if_neg heq]

theorem processRef_none_eq {resolve : Resolver} {st : RecState} {s : String}
    (h : updatesRef resolve (Yaml.str s) = none) :
    processRef resolve st s = { st with lookups := st.lookups ++ refLookups (Yaml.str s) } := by
  rw [processRef_eq, refLookups_str_eq]
  rw [updatesRef_str_eq] at h
  cases hs : splitRef s with
  | none =>
    simp only [hs]
    show st = { st with lookups := st.lookups ++ [] }
    simp
  | some rv =>
    obtain ⟨repo, ver⟩ := rv
    simp only [hs] at h ⊢
    cases hr : resolve repo with
    | none => simp only [hr]
    | some rel =>
      simp only [hr] at h ⊢
      by_cases heq : s = repo ++ "@" ++ rel.tag_name
      · rw [if_pos heq]
      · rw [if_neg heq] at h
        exact absurd h (by simp)

theorem processRef_some_eq {resolve : Resolver} {st : RecState} {s repo : String}
    {rel : Release} (h : updatesRef resolve (Yaml.str s) = some (repo, rel)) :
    processRef resolve st s =
      { st with
        text := strReplace st.text s (repo ++ "@" ++ rel.tag_name)
        changed := true
        notes := insert (pull_request_body_line repo rel) st.notes
        lookups := st.lookups ++ [repo] } := by
  obtain ⟨ver, hs, hr, hne⟩ := updatesRef_split h
  rw [processRef_eq]
  simp only [hs, hr]
  rw [if_neg hne]

theorem processRef_lookups (resolve : Resolver) (st : RecState) (s : String) :
    (processRef resolve st s).lookups = st.lookups ++ refLookups (Yaml.str s) := by
  cases h : updatesRef resolve (Yaml.str s) with
  | none => rw [processRef_none_eq h]
  | some pr =>
    obtain ⟨repo, rel⟩ := pr
    rw [processRef_some_eq h]
    obtain ⟨ver, hs, _, _⟩ := updatesRef_split h
    show st.lookups ++ [repo] = st.lookups ++ refLookups (Yaml.str s)
    rw [refLookups_str_eq, hs]

/-! ### Characterization of the whole loop -/

theorem reconcileRefs_spec (resolve : Resolver) :
    ∀ (refs : List Yaml) (st : RecState),
      (∀ a ∈ refs, ∃ s, a = Yaml.str s) →
      (reconcileRefs resolve refs st).2 = false ∧
      (reconcileRefs resolve refs st).1.changed
          = (st.changed || refs.any fun a => (updatesRef resolve a).isSome) ∧
      (∀ n, n ∈ (reconcileRefs resolve refs st).1.notes ↔
        n ∈ st.notes ∨ ∃ repo rel,
          (∃ a ∈ refs, updatesRef resolve a = some (repo, rel))
            ∧ n = pull_request_body_line repo rel) := by
  intro refs
  induction refs with
  | nil =>
    intro st _
    refine ⟨rfl, by simp [reconcileRefs], fun n => ?_⟩
    simp [reconcileRefs]
  | cons a rest ih =>
    intro st h
    obtain ⟨s, rfl⟩ := h a (by simp)
    rw [show reconcileRefs resolve (Yaml.str s :: rest) st
        = reconcileRefs resolve rest (processRef resolve st s) from rfl]
    have hrest : ∀ b ∈ rest, ∃ s', b = Yaml.str s' := fun b hb => h b (by simp [hb])
    cases hu : updatesRef resolve (Yaml.str s) with
    | none =>
      rw [processRef_none_eq hu]
      obtain ⟨habort, hchanged, hnotes⟩ := ih _ hrest
      refine ⟨habort, ?_, ?_⟩
      · rw [hchanged]
        simp [hu]
      · intro n
        rw [hnotes n]
        show (n ∈ st.notes ∨ _) ↔ _
        constructor
        · rintro (hn | ⟨repo, rel, ⟨b, hb, hub⟩, rfl⟩)
          · exact Or.inl hn
          · exact Or.inr ⟨repo, rel, ⟨b, by simp [hb], hub⟩, rfl⟩
        · rintro (hn | ⟨repo, rel, ⟨b, hb, hub⟩, rfl⟩)
          · exact Or.inl hn
          · rcases List.mem_cons.mp hb with rfl | hb2
            · rw [hu] at hub; exact absurd hub (by simp)
            · exact Or.inr ⟨repo, rel, ⟨b, hb2, hub⟩, rfl⟩
    | some pr =>
      obtain ⟨repo, rel⟩ := pr
      rw [processRef_some_eq hu]
      obtain ⟨habort, hchanged, hnotes⟩ := ih _ hrest
      refine ⟨habort, ?_, ?_⟩
      · rw [hchanged]
        simp [hu]
      · intro n
        rw [hnotes n]
        show (n ∈ insert (pull_request_body_line repo rel) st.notes ∨ _) ↔ _
        rw [Finset.mem_insert]
        constructor
        · rintro ((rfl | hn) | ⟨repo', rel', ⟨b, hb, hub⟩, rfl⟩)
          · exact Or.inr ⟨repo, rel, ⟨Yaml.str s, by simp, hu⟩, rfl⟩
          · exact Or.inl hn
          · exact Or.inr ⟨repo', rel', ⟨b, by simp [hb], hub⟩, rfl⟩
        · rintro (hn | ⟨repo', rel', ⟨b, hb, hub⟩, rfl⟩)
          · exact Or.inl (Or.inr hn)
          · rcases List.mem_cons.mp hb with rfl | hb2
            · rw [hu] at hub
              obtain ⟨h1, h2⟩ := Prod.mk.injEq repo rel repo' rel' ▸ Option.some.injEq _ _ ▸ hub
              subst h1; subst h2
              exact Or.inl (Or.inl rfl)
            · exact Or.inr ⟨repo', rel', ⟨b, hb2, hub⟩, rfl⟩

theorem reconcileRefs_lookups_mem (resolve : Resolver) :
    ∀ (refs : List Yaml) (st : RecState) (r : String),
      r ∈ (reconcileRefs resolve refs st).1.lookups →
      r ∈ st.lookups ∨ ∃ a ∈ refs, r ∈ refLookups a := by
  intro refs
  induction refs with
  | nil => intro st r h; exact Or.inl h
  | cons a rest ih =>
    intro st r h
    cases a with
    | str s =>
      rw [show reconcileRefs resolve (Yaml.str s :: rest) st
          = reconcileRefs resolve rest (processRef resolve st s) from rfl] at h
      rcases ih _ r h with hmem | ⟨b, hb, hr⟩
      · rw [processRef_lookups] at hmem
        rcases List.mem_append.mp hmem with h1 | h2
        · exact Or.inl h1
        · exact Or.inr ⟨Yaml.str s, by simp, h2⟩
      · exact Or.inr ⟨b, by simp [hb], hr⟩
    | other => exact Or.inl h
    | map es => exact Or.inl h
    | seq xs => exact Or.inl h

theorem reconcileRefs_text_frozen (resolve : Resolver) :
    ∀ (refs : List Yaml) (st : RecState),
      (∀ a ∈ refs, updatesRef resolve a = none) →
      (∀ a ∈ refs, ∃ s, a = Yaml.str s) →
      (reconcileRefs resolve refs st).1.text = st.text := by
  intro refs
  induction refs with
  | nil => intro st _ _; rfl
  | cons a rest ih =>
    intro st hnone hstr
    obtain ⟨s, rfl⟩ := hstr a (by simp)
    rw [show reconcileRefs resolve (Yaml.str s :: rest) st
        = reconcileRefs resolve rest (processRef resolve st s) from rfl]
    rw [ih _ (fun b hb => hnone b (by simp [hb])) (fun b hb => hstr b (by simp [hb]))]
    rw [processRef_none_eq (hnone (Yaml.str s) (by simp))]

theorem updatesRef_none_of_pinned {resolve : Resolver} {s repo ver : String}
    {rel : Release} (hs : splitRef s = some (repo, ver))
    (hr : resolve repo = some rel) (heq : repo ++ "@" ++ rel.tag_name = s) :
    updatesRef resolve (Yaml.str s) = none := by
  rw [updatesRef_str_eq]
  simp only [hs, hr]
  rw [if_pos heq.symm]

theorem mem_ignoreFilter {ignore : List String} {refs : List Yaml} {a : Yaml} :
    a ∈ ignoreFilter ignore refs ↔
      a ∈ refs ∧ ∀ s, a = Yaml.str s → ¬ s ∈ ignore := by
  unfold ignoreFilter
  rw [List.mem_filter]
  constructor
  · rintro ⟨hmem, hp⟩
    refine ⟨hmem, fun s has => ?_⟩
    subst has
    simp only [Bool.not_eq_true'] at hp
    intro hin
    rw [List.contains_eq_any_beq] at hp
    simp [List.any_eq_true] at hp
    exact hp s hin rfl
  · rintro ⟨hmem, hp⟩
    refine ⟨hmem, ?_⟩
    cases a with
    | str s =>
      have hns := hp s rfl
      simp only [Bool.not_eq_true']
      rw [List.contains_eq_any_beq]
      simp [List.any_eq_true]
      intro x hx hsx
      exact hns (hsx ▸ hx)
    | other => rfl
    | map es => rfl
    | seq xs => rfl

theorem reconcileRefs_single_update (resolve : Resolver) :
    ∀ (refs : List Yaml) (st : RecState) (s repo : String) (rel : Release),
      (∀ a ∈ refs, ∃ s', a = Yaml.str s') →
      Yaml.str s ∈ refs →
      updatesRef resolve (Yaml.str s) = some (repo, rel) →
      (∀ b ∈ refs, b ≠ Yaml.str s → updatesRef resolve b = none) →
      refs.Nodup →
      (reconcileRefs resolve refs st).1.text
        = strReplace st.text s (repo ++ "@" ++ rel.tag_name) := by
  intro refs
  induction refs with
  | nil => intro st s repo rel _ hmem; exact absurd hmem (List.not_mem_nil _)
  | cons a rest ih =>
    intro st s repo rel hstr hmem hu hothers hnodup
    obtain ⟨s', rfl⟩ := hstr a (by simp)
    rw [show reconcileRefs resolve (Yaml.str s' :: rest) st
        = reconcileRefs resolve rest (processRef resolve st s') from rfl]
    by_cases hhead : Yaml.str s' = Yaml.str s
    · have hss : s' = s := Yaml.str.injEq s' s ▸ hhead
      subst hss
      have hrest_none : ∀ b ∈ rest, updatesRef resolve b = none := by
        intro b hb
        apply hothers b (by simp [hb])
        intro hbs
        subst hbs
        exact (List.nodup_cons.mp hnodup).1 hb
      rw [reconcileRefs_text_frozen resolve rest _ hrest_none
        (fun b hb => hstr b (by simp [hb]))]
      rw [processRef_some_eq hu]
    · have hs'none : updatesRef resolve (Yaml.str s') = none :=
        hothers (Yaml.str s') (by simp) hhead
      have hmem2 : Yaml.str s ∈ rest := by
        rcases List.mem_cons.mp hmem with heq | h2
        · exact absurd heq.symm hhead
        · exact h2
      rw [ih _ s repo rel (fun b hb => hstr b (by simp [hb])) hmem2 hu
        (fun b hb hbs => hothers b (by simp [hb]) hbs)
        (List.nodup_cons.mp hnodup).2]
      rw [processRef_none_eq hs'none]

theorem reconcileDoc_spec (resolve : Resolver) (text : String) (refs : List Yaml)
    (ignore : List String)
    (h : ∀ a ∈ ignoreFilter ignore refs, ∃ s, a = Yaml.str s) :
    (reconcileDoc resolve text refs ignore).aborted = false ∧
    (reconcileDoc resolve text refs ignore).changed
        = (ignoreFilter ignore refs).any (fun a => (updatesRef resolve a).isSome) ∧
    (reconcileDoc resolve text refs ignore).newText
        = (if (ignoreFilter ignore refs).any (fun a => (updatesRef resolve a).isSome)
           then some (reconcileRefs resolve (ignoreFilter ignore refs)
              ⟨text, false, ∅, []⟩).1.text
           else none) ∧
    (∀ n, n ∈ (reconcileDoc resolve text refs ignore).notes ↔
      ∃ repo rel,
        (∃ a ∈ ignoreFilter ignore refs, updatesRef resolve a = some (repo, rel))
          ∧ n = pull_request_body_line repo rel) := by
  obtain ⟨habort, hchanged, hnotes⟩ :=
    reconcileRefs_spec resolve (ignoreFilter ignore refs) ⟨text, false, ∅, []⟩ h
  refine ⟨habort, ?_, ?_, ?_⟩
  · show (reconcileRefs resolve (ignoreFilter ignore refs)
        ⟨text, false, ∅, []⟩).1.changed = _
    rw [hchanged]
    exact Bool.false_or _
  · show (if (reconcileRefs resolve (ignoreFilter ignore refs)
        ⟨text, false, ∅, []⟩).2 = true then none
      else if (reconcileRefs resolve (ignoreFilter ignore refs)
        ⟨text, false, ∅, []⟩).1.changed = true
      then some (reconcileRefs resolve (ignoreFilter ignore refs)
        ⟨text, false, ∅, []⟩).1.text
      else none) = _
    rw [habort, hchanged]
    simp only [Bool.false_or, Bool.false_eq_true, if_false]
  · intro n
    show n ∈ (reconcileRefs resolve (ignoreFilter ignore refs)
        ⟨text, false, ∅, []⟩).1.notes ↔ _
    rw [hnotes n]
    show n ∈ (∅ : Finset String) ∨ _ ↔ _
    simp only [Finset.not_mem_empty, false_or]

theorem reconcileDoc_notes_image (resolve : Resolver) (text : String)
    (refs : List Yaml) (ignore : List String)
    (h : ∀ a ∈ ignoreFilter ignore refs, ∃ s, a = Yaml.str s) :
    (reconcileDoc resolve text refs ignore).notes =
      ((upgradedRepos resolve (ignoreFilter ignore refs)).toFinset).image
        (noteFor resolve) := by
  apply Finset.ext
  intro n
  rw [(reconcileDoc_spec resolve text refs ignore h).2.2.2 n, Finset.mem_image]
  constructor
  · rintro ⟨repo, rel, ⟨a, ha, hua⟩, rfl⟩
    refine ⟨repo, ?_, ?_⟩
    · rw [List.mem_toFinset]
      unfold upgradedRepos
      rw [List.mem_map]
      exact ⟨(repo, rel), List.mem_filterMap.mpr ⟨a, ha, hua⟩, rfl⟩
    · unfold noteFor
      rw [updatesRef_resolve hua]
  · rintro ⟨repo, hrepo, rfl⟩
    rw [List.mem_toFinset] at hrepo
    unfold upgradedRepos at hrepo
    rw [List.mem_map] at hrepo
    obtain ⟨pr, hpr, hfst⟩ := hrepo
    rw [List.mem_filterMap] at hpr
    obtain ⟨a, ha, hua⟩ := hpr
    obtain ⟨repo', rel⟩ := pr
    have hrr : repo' = repo := hfst
    subst hrr
    refine ⟨repo', rel, ⟨a, ha, hua⟩, ?_⟩
    unfold noteFor
    rw [updatesRef_resolve hua]

theorem reconcileDoc_pinned (resolve : Resolver) (text : String)
    (refs : List Yaml) (ignore : List String)
    (h : ∀ a ∈ refs, ∃ s repo ver rel, a = Yaml.str s ∧
      splitRef s = some (repo, ver) ∧ resolve repo = some rel ∧
      repo ++ "@" ++ rel.tag_name = s) :
    (reconcileDoc resolve text refs ignore).newText = none ∧
    (reconcileDoc resolve text refs ignore).changed = false ∧
    (reconcileDoc resolve text refs ignore).notes = ∅ ∧
    (reconcileDoc resolve text refs ignore).aborted = false := by
  have hstr : ∀ a ∈ ignoreFilter ignore refs, ∃ s, a = Yaml.str s := by
    intro a ha
    obtain ⟨s, _, _, _, has, _⟩ := h a (mem_ignoreFilter.mp ha).1
    exact ⟨s, has⟩
  have hnone : ∀ a ∈ ignoreFilter ignore refs, updatesRef resolve a = none := by
    intro a ha
    obtain ⟨s, repo, ver, rel, has, hs, hr, heq⟩ := h a (mem_ignoreFilter.mp ha).1
    subst has
    exact updatesRef_none_of_pinned hs hr heq
  obtain ⟨habort, hchanged, hnew, hnotes⟩ :=
    reconcileDoc_spec resolve text refs ignore hstr
  have hany : (ignoreFilter ignore refs).any
      (fun a => (updatesRef resolve a).isSome) = false := by
    rw [List.any_eq_false]
    intro a ha
    rw [hnone a ha]
    simp
  refine ⟨?_, ?_, ?_, habort⟩
  · rw [hnew, hany]
    simp
  · rw [hchanged, hany]
  · rw [Finset.eq_empty_iff_forall_not_mem]
    intro n hn
    rw [hnotes n] at hn
    obtain ⟨repo, rel, ⟨a, ha, hua⟩, _⟩ := hn
    rw [hnone a ha] at hua
    exact absurd hua (by simp)

theorem collectPaths_eq (ws : List Json)
    (h : ∀ w ∈ ws, (subscript w "path").isSome) :
    collectPaths ws = some (ws.filterMap fun w => subscript w "path") := by
  induction ws with
  | nil => rfl
  | cons w rest ih =>
    have hw := h w (by simp)
    obtain ⟨p, hp⟩ := Option.isSome_iff_exists.mp hw
    show (match subscript w "path" with
      | none => none
      | some p =>
        match collectPaths rest with
        | none => none
        | some ps => some (p :: ps)) = _
    rw [hp, ih (fun x hx => h x (by simp [hx]))]
    rw [List.filterMap_cons]
    simp only [hp]

/-! ## Claim C1 -/

/-- C1 counterexample.  The claim says a reference whose repository identifier
(the part before `@`) is in the ignore set is never looked up.  The code
subtracts the ignore set from the set of FULL reference strings
(`all_action_set.difference_update(ignore_actions)`, src/main.py line 66), so
with ignore set `{"owner/repo"}` the reference `"owner/repo@v1"` — whose
repository identifier `"owner/repo"` is in the ignore set — survives the
subtraction and a remote release lookup for `"owner/repo"` is performed. -/
theorem c1_ignore_counterexample :
    "owner/repo" ∈ ["owner/repo"] ∧
    splitRef "owner/repo@v1" = some ("owner/repo", "v1") ∧
    (reconcileDoc resolveOR "jobs:\n" [Yaml.str "owner/repo@v1"]
        ["owner/repo"]).lookups = ["owner/repo"] :=
  ⟨by simp, rfl, rfl⟩

/-- C1 amended: the ignore set is matched against full reference strings, not
repository identifiers.  A reference that is literally a member of the ignore
set is removed before the loop runs, and every performed remote lookup comes
from a reference string that survived the subtraction: its full string is not
in the ignore set and its repository identifier is the looked-up one. -/
theorem c1_ignore_literal (resolve : Resolver) (text : String) (refs : List Yaml)
    (ignore : List String) :
    (∀ a, a ∈ ignoreFilter ignore refs ↔
        a ∈ refs ∧ ∀ s, a = Yaml.str s → ¬ s ∈ ignore) ∧
    (∀ r, r ∈ (reconcileDoc resolve text refs ignore).lookups →
        ∃ s ver, Yaml.str s ∈ refs ∧ ¬ s ∈ ignore ∧ splitRef s = some (r, ver)) := by
  refine ⟨fun a => mem_ignoreFilter, fun r hr => ?_⟩
  have hmem := reconcileRefs_lookups_mem resolve (ignoreFilter ignore refs)
    ⟨text, false, ∅, []⟩ r hr
  rcases hmem with hnil | ⟨a, ha, hra⟩
  · exact absurd hnil (List.not_mem_nil r)
  · obtain ⟨hrefs, hnotig⟩ := mem_ignoreFilter.mp ha
    cases a with
    | str s =>
      rw [refLookups_str_eq] at hra
      cases hs : splitRef s with
      | none => rw [hs] at hra; exact absurd hra (List.not_mem_nil r)
      | some rv =>
        obtain ⟨repo, ver⟩ := rv
        simp only [hs] at hra
        have hrrepo : r = repo := List.mem_singleton.mp hra
        subst hrrepo
        exact ⟨s, ver, hrefs, hnotig s rfl, hs⟩
    | other => exact absurd hra (List.not_mem_nil r)
    | map es => exact absurd hra (List.not_mem_nil r)
    | seq xs => exact absurd hra (List.not_mem_nil r)

/-- C1 amended, witness: a run with one non-ignored reference performs a
lookup, and the theorem attributes it to that reference. -/
theorem c1_ignore_literal_witness :
    ∃ s ver, Yaml.str s ∈ [Yaml.str "a/b@v1"] ∧ ¬ s ∈ ([] : List String) ∧
      splitRef s = some ("a/b", ver) :=
  (c1_ignore_literal resolveAB "uses: a/b@v1\n" [Yaml.str "a/b@v1"] []).2 "a/b"
    (by rw [show (reconcileDoc resolveAB "uses: a/b@v1\n" [Yaml.str "a/b@v1"]
        []).lookups = ["a/b"] from rfl]; simp)

/-! ## Claim C4 -/

/-- C4 counterexample.  The claim says a reference whose split does not yield
exactly two NON-EMPTY parts is skipped with a diagnostic.  The code's
`action_repository, version = action.split("@")` only raises (and is only
skipped) when the number of parts differs from two: `"owner/repo@"` splits
into two parts with an empty ref part, is NOT skipped, a remote lookup is
performed for `"owner/repo"`, and the reference is even rewritten. -/
theorem c4_empty_part_counterexample :
    splitRef "owner/repo@" = some ("owner/repo", "") ∧
    (reconcileDoc resolveOR "uses: owner/repo@\n" [Yaml.str "owner/repo@"]
        []).lookups = ["owner/repo"] ∧
    (reconcileDoc resolveOR "uses: owner/repo@\n" [Yaml.str "owner/repo@"]
        []).newText = some "uses: owner/repo@v2\n" :=
  ⟨rfl, rfl, rfl⟩

/-- C4 amended: a string reference whose split on `"@"` yields a number of
parts different from two (no `"@"` at all, or more than one) is skipped with
a diagnostic — the loop state is untouched, so no lookup is performed — and
processing a string reference never raises an error that aborts the rest of
the document (the iteration always returns normally); emptiness of the two
parts is not checked. -/
theorem c4_malformed_skip :
    (∀ (resolve : Resolver) (st : RecState) (s : String),
      splitRef s = none → refStep resolve st (Yaml.str s) = Except.ok st) ∧
    (∀ (resolve : Resolver) (st : RecState) (s : String),
      refStep resolve st (Yaml.str s) = Except.ok (processRef resolve st s)) := by
  refine ⟨fun resolve st s h => ?_, fun resolve st s => rfl⟩
  show Except.ok (processRef resolve st s) = Except.ok st
  rw [processRef_eq]
  simp only [h]

/-- C4 amended, witness: `"owner/repo"` has no `"@"`, so its split raises
`ValueError` and the iteration leaves the state untouched. -/
theorem c4_malformed_skip_witness :
    splitRef "owner/repo" = none ∧
    refStep resolveOR ⟨"t", false, ∅, []⟩ (Yaml.str "owner/repo")
      = Except.ok ⟨"t", false, ∅, []⟩ :=
  ⟨rfl, c4_malformed_skip.1 resolveOR ⟨"t", false, ∅, []⟩ "owner/repo" rfl⟩

/-! ## Claim C5 -/

/-- C5 counterexample.  The extractor does yield a non-string `uses` value
unchanged (first conjunct), but downstream it is NOT handled as a malformed
reference at the per-reference level: `action.split("@")` raises
`AttributeError`, which the `except ValueError` handler does not catch; the
per-document `except Exception` handler catches it and skips the whole
document.  In a run whose reference set iterates the non-string value first,
the well-formed reference `"a/b@v1"` of the same document is never processed:
no lookup happens and the file is not written. -/
theorem c5_nonstring_counterexample :
    get_all_actions (Yaml.map [("uses", Yaml.other)]) = [Yaml.other] ∧
    (reconcileDoc resolveAB "uses: a/b@v1\n" [Yaml.other, Yaml.str "a/b@v1"]
        []).aborted = true ∧
    (reconcileDoc resolveAB "uses: a/b@v1\n" [Yaml.other, Yaml.str "a/b@v1"]
        []).lookups = [] ∧
    (reconcileDoc resolveAB "uses: a/b@v1\n" [Yaml.other, Yaml.str "a/b@v1"]
        []).newText = none :=
  ⟨rfl, rfl, rfl, rfl⟩

/-- C5 amended: a non-string value under the recognized key is yielded
unchanged by the extractor (not an extractor error), but the per-reference
loop iteration raises an error outside the malformed-reference
(`ValueError`) handler for it, so the per-document handler aborts the whole
document: the loop stops at the non-string value and the remaining
references of the same document are abandoned. -/
theorem c5_nonstring_aborts :
    (∀ (es : List (String × Yaml)) (v : Yaml),
      ("uses", v) ∈ es → v ∈ get_all_actions (Yaml.map es)) ∧
    (∀ (resolve : Resolver) (st : RecState) (a : Yaml),
      (∀ s, a ≠ Yaml.str s) → refStep resolve st a = Except.error st) ∧
    (∀ (resolve : Resolver) (a : Yaml) (rest : List Yaml) (st : RecState),
      (∀ s, a ≠ Yaml.str s) → reconcileRefs resolve (a :: rest) st = (st, true)) := by
  refine ⟨fun es v hmem => ?_, fun resolve st a ha => ?_, fun resolve a rest st ha => ?_⟩
  · exact (mem_get_all_actions (Yaml.map es) v).mpr (ExtractedUses.here hmem)
  · cases a with
    | str s => exact absurd rfl (ha s)
    | other => rfl
    | map es => rfl
    | seq xs => rfl
  · cases a with
    | str s => exact absurd rfl (ha s)
    | other => rfl
    | map es => rfl
    | seq xs => rfl

/-- C5 amended, witness: a concrete non-string value is extracted unchanged
and aborts the loop, abandoning the remaining reference. -/
theorem c5_nonstring_aborts_witness :
    Yaml.other ∈ get_all_actions (Yaml.map [("uses", Yaml.other)]) ∧
    reconcileRefs resolveAB [Yaml.other, Yaml.str "a/b@v1"] ⟨"t", false, ∅, []⟩
      = (⟨"t", false, ∅, []⟩, true) :=
  ⟨c5_nonstring_aborts.1 [("uses", Yaml.other)] Yaml.other (by simp),
   c5_nonstring_aborts.2.2 resolveAB Yaml.other [Yaml.str "a/b@v1"]
     ⟨"t", false, ∅, []⟩ (fun s h => Yaml.noConfusion h)⟩

/-! ## Claim C6 -/

/-- C6 counterexample.  The claim says the extractor yields each value stored
under a `"uses"` key at any nesting depth, recursing into every mapping
value.  The code does not recurse into the value of a `"uses"` entry: in
`{uses: {uses: x}}` the inner value `x` is stored under a `"uses"` key at
depth two but is not yielded (only the outer mapping is). -/
theorem c6_nested_uses_counterexample :
    HasUses (Yaml.map [("uses", Yaml.map [("uses", Yaml.str "x")])]) (Yaml.str "x") ∧
    ¬ Yaml.str "x" ∈ get_all_actions
        (Yaml.map [("uses", Yaml.map [("uses", Yaml.str "x")])]) := by
  constructor
  · exact HasUses.inMap (List.mem_singleton.mpr rfl)
      (HasUses.here (List.mem_singleton.mpr rfl))
  · intro h
    rw [show get_all_actions (Yaml.map [("uses", Yaml.map [("uses", Yaml.str "x")])])
        = [Yaml.map [("uses", Yaml.str "x")]] from rfl] at h
    simp at h

/-- C6 amended: a document with no `"uses"` key at any nesting depth yields an
empty extraction, and the extractor yields exactly the values reachable by
the code's traversal (`ExtractedUses`): every `"uses"` value reachable by
recursing into sequence elements and into mapping values of entries whose
key is not `"uses"`; such a value is in particular stored under a `"uses"`
key (`HasUses`), but values nested inside another `"uses"` value are not
yielded. -/
theorem c6_extractor_characterization :
    (∀ d : Yaml, (∀ v, ¬ HasUses d v) → get_all_actions d = []) ∧
    (∀ (d v : Yaml), v ∈ get_all_actions d ↔ ExtractedUses d v) ∧
    (∀ (d v : Yaml), ExtractedUses d v → HasUses d v) :=
  ⟨fun _ h => gaa_nil_of_no_uses h, mem_get_all_actions,
   fun _ _ h => extracted_hasUses h⟩

/-- C6 amended, witness: a scalar document has no `"uses"` anywhere and the
extraction is empty. -/
theorem c6_extractor_characterization_witness :
    (∀ v, ¬ HasUses Yaml.other v) ∧ get_all_actions Yaml.other = [] := by
  have hno : ∀ v, ¬ HasUses Yaml.other v := by
    intro v h
    cases h
  exact ⟨hno, c6_extractor_characterization.1 Yaml.other hno⟩

/-! ## Claim C2 -/

theorem tagAppend_inj {repo x y : String} (h : repo ++ "@" ++ x = repo ++ "@" ++ y) :
    x = y := by
  apply String.ext
  have hd := congrArg String.data h
  simp only [strData_append] at hd
  exact List.append_cancel_left hd

/-- C2 counterexample.  In the document
`"- uses: a/b@v1x\n- uses: a/b@v1\n"` with latest tag `v2` for `a/b` and
reference-set iteration order `[a/b@v1, a/b@v1x]`, the reference `a/b@v1x`
is well-formed, occurs verbatim in the raw text, and its resolved latest tag
differs from its ref — yet its raw occurrence is not replaced with the
updated reference `a/b@v2`: the earlier replacement of `a/b@v1` (which
occurs inside it) turns it into `a/b@v2x`, which survives in the final text
(and `a/b@v1x` no longer occurs there, so the later replacement is a no-op).
So the run does not replace every verbatim occurrence of `a/b@v1x` in the
raw document text with `a/b@v2`. -/
theorem c2_raw_text_counterexample :
    updatesRef resolveAB (Yaml.str "a/b@v1x") = some ("a/b", relV2) ∧
    containsSub "a/b@v1x".data "- uses: a/b@v1x\n- uses: a/b@v1\n".data = true ∧
    (reconcileDoc resolveAB "- uses: a/b@v1x\n- uses: a/b@v1\n"
        [Yaml.str "a/b@v1", Yaml.str "a/b@v1x"] []).newText
      = some "- uses: a/b@v2x\n- uses: a/b@v2\n" ∧
    containsSub "a/b@v2x".data "- uses: a/b@v2x\n- uses: a/b@v2\n".data = true ∧
    containsSub "a/b@v1x".data "- uses: a/b@v2x\n- uses: a/b@v2\n".data = false ∧
    ("a/b@v2x" : String) ≠ "a/b@" ++ relV2.tag_name :=
  ⟨rfl, rfl, rfl, rfl, rfl, by decide⟩

/-- C2 amended: a well-formed reference whose resolved latest tag differs
textually from its ref is replaced — by one literal text substitution of
every occurrence — in the document text as it stands when that reference is
processed (earlier replacements of other references may already have altered
overlapping raw occurrences), the document is marked changed and the
reference's body line is added to the note set; and the final note set holds
exactly one note per distinct upgraded repository identifier (the image of
the upgraded-repository set under the note builder, duplicates collapsed by
the set). -/
theorem c2_rewrite_and_notes :
    (∀ (resolve : Resolver) (st : RecState) (s repo old : String) (rel : Release),
      splitRef s = some (repo, old) →
      resolve repo = some rel →
      rel.tag_name ≠ old →
      processRef resolve st s =
        { st with
          text := strReplace st.text s (repo ++ "@" ++ rel.tag_name)
          changed := true
          notes := insert (pull_request_body_line repo rel) st.notes
          lookups := st.lookups ++ [repo] }) ∧
    (∀ (resolve : Resolver) (text : String) (refs : List Yaml) (ignore : List String),
      (∀ a ∈ ignoreFilter ignore refs, ∃ s, a = Yaml.str s) →
      (reconcileDoc resolve text refs ignore).notes =
        ((upgradedRepos resolve (ignoreFilter ignore refs)).toFinset).image
          (noteFor resolve)) := by
  constructor
  · intro resolve st s repo old rel hs hr hne
    apply processRef_some_eq
    have hneq : s ≠ repo ++ "@" ++ rel.tag_name := by
      intro heq
      have hsold := (splitRef_append hs).1
      rw [hsold] at heq
      exact hne (tagAppend_inj heq).symm
    rw [updatesRef_str_eq]
    simp only [hs, hr]
    rw [if_neg hneq]
  · exact fun resolve text refs ignore h =>
      reconcileDoc_notes_image resolve text refs ignore h

/-- C2 amended, witness: one step on the reference `a/b@v1` with latest tag
`v2` rewrites the text, sets the flag, records the note and the lookup. -/
theorem c2_rewrite_and_notes_witness :
    processRef resolveAB ⟨"uses: a/b@v1\n", false, ∅, []⟩ "a/b@v1"
      = ⟨strReplace "uses: a/b@v1\n" "a/b@v1" ("a/b" ++ "@" ++ relV2.tag_name),
         true, insert (pull_request_body_line "a/b" relV2) ∅, [] ++ ["a/b"]⟩ :=
  c2_rewrite_and_notes.1 resolveAB ⟨"uses: a/b@v1\n", false, ∅, []⟩
    "a/b@v1" "a/b" "v1" relV2 rfl rfl (by decide)

/-! ## Claim C3 -/

/-- C3 counterexample to the idempotence half of the claim.  First run: the
document `"- uses: a/b@v1x\n- uses: a/b@v1\n"` with references iterated in
the order `[a/b@v1, a/b@v1x]` (Python set iteration order is unspecified;
this order is possible) is rewritten to `"- uses: a/b@v2x\n- uses: a/b@v2\n"`
because replacing `a/b@v1` also corrupts `a/b@v1x`.  Parsing that rewritten
text yields the references `[a/b@v2x, a/b@v2]` (second conjunct, on the
parsed form of the rewritten text).  Second run, with the same resolver (no
upstream change): `a/b@v2x` still resolves to latest `v2` and differs, so
the document is rewritten again, to `"- uses: a/b@v2\n- uses: a/b@v2\n"` —
the outputs of the two runs differ. -/
theorem c3_idempotence_counterexample :
    (reconcileDoc resolveAB "- uses: a/b@v1x\n- uses: a/b@v1\n"
        [Yaml.str "a/b@v1", Yaml.str "a/b@v1x"] []).newText
      = some "- uses: a/b@v2x\n- uses: a/b@v2\n" ∧
    get_all_actions (Yaml.seq [Yaml.map [("uses", Yaml.str "a/b@v2x")],
        Yaml.map [("uses", Yaml.str "a/b@v2")]])
      = [Yaml.str "a/b@v2x", Yaml.str "a/b@v2"] ∧
    (reconcileDoc resolveAB "- uses: a/b@v2x\n- uses: a/b@v2\n"
        [Yaml.str "a/b@v2x", Yaml.str "a/b@v2"] []).newText
      = some "- uses: a/b@v2\n- uses: a/b@v2\n" ∧
    ("- uses: a/b@v2\n- uses: a/b@v2\n" : String)
      ≠ "- uses: a/b@v2x\n- uses: a/b@v2\n" :=
  ⟨rfl, rfl, rfl, by decide⟩

/-- C3 amended: a reference whose resolved latest tag equals its current ref
is never rewritten (the iteration only performs the lookup), and a document
in which every reference already pins its latest tag is left unchanged: no
write-back, no changed flag, no notes, no abort.  Consequently a second run
produces output identical to the first whenever the first run's output
extracts to references that all pin their latest tags — which can fail when
one reference string is a substring of another (see the counterexample). -/
theorem c3_pinned_noop :
    (∀ (resolve : Resolver) (st : RecState) (s repo ver : String) (rel : Release),
      splitRef s = some (repo, ver) → resolve repo = some rel →
      repo ++ "@" ++ rel.tag_name = s →
      processRef resolve st s = { st with lookups := st.lookups ++ [repo] }) ∧
    (∀ (resolve : Resolver) (text : String) (refs : List Yaml) (ignore : List String),
      (∀ a ∈ refs, ∃ s repo ver rel, a = Yaml.str s ∧ splitRef s = some (repo, ver) ∧
        resolve repo = some rel ∧ repo ++ "@" ++ rel.tag_name = s) →
      (reconcileDoc resolve text refs ignore).newText = none ∧
      (reconcileDoc resolve text refs ignore).changed = false ∧
      (reconcileDoc resolve text refs ignore).notes = ∅ ∧
      (reconcileDoc resolve text refs ignore).aborted = false) := by
  constructor
  · intro resolve st s repo ver rel hs hr heq
    rw [processRef_none_eq (updatesRef_none_of_pinned hs hr heq), refLookups_str_eq]
    simp only [hs]
  · exact fun resolve text refs ignore h =>
      reconcileDoc_pinned resolve text refs ignore h

/-- C3 amended, witness: a reference already pinned at the latest tag is left
alone (only the lookup happens), and a document whose single reference is
pinned is not written back. -/
theorem c3_pinned_noop_witness :
    processRef resolveAB ⟨"uses: a/b@v2\n", false, ∅, []⟩ "a/b@v2"
      = ⟨"uses: a/b@v2\n", false, ∅, [] ++ ["a/b"]⟩ ∧
    (reconcileDoc resolveAB "uses: a/b@v2\n" [Yaml.str "a/b@v2"] []).newText
      = none := by
  constructor
  · exact c3_pinned_noop.1 resolveAB ⟨"uses: a/b@v2\n", false, ∅, []⟩
      "a/b@v2" "a/b" "v2" relV2 rfl rfl (by decide)
  · refine (c3_pinned_noop.2 resolveAB "uses: a/b@v2\n" [Yaml.str "a/b@v2"] [] ?_).1
    intro a ha
    rw [List.mem_singleton] at ha
    subst ha
    exact ⟨"a/b@v2", "a/b", "v2", relV2, rfl, rfl, rfl, by decide⟩

/-! ## Claim C8 -/

/-- C8 counterexample.  The file is written back whenever `workflow_updated`
is set, which does not imply the text changed: in the raw document below the
reference scalar is double-quoted and spells the at-sign with the YAML
escape sequence backslash-u-0040, so `yaml.load` extracts the reference
`a/b@v1` although that string does not occur verbatim in the raw text.  With latest tag `v2` the loop marks the document updated and performs
a no-op replacement, and the file is overwritten with content identical to
the original — contradicting both "written back only if its content actually
changed" and "whenever the file is overwritten the new text differs". -/
theorem c8_write_unchanged_counterexample :
    containsSub "a/b@v1".data "steps:\n- uses: \"a/b\\u0040v1\"\n".data = false ∧
    (reconcileDoc resolveAB "steps:\n- uses: \"a/b\\u0040v1\"\n"
        [Yaml.str "a/b@v1"] []).changed = true ∧
    (reconcileDoc resolveAB "steps:\n- uses: \"a/b\\u0040v1\"\n"
        [Yaml.str "a/b@v1"] []).newText
      = some "steps:\n- uses: \"a/b\\u0040v1\"\n" :=
  ⟨rfl, rfl, rfl⟩

/-- C8 amended: the file is written back exactly when at least one reference
is rewritten (so a document in which no reference is rewritten is left
untouched), and when the run rewrites exactly one reference and that
reference occurs verbatim in the raw text, the written text differs from the
original.  (A rewritten reference that does not occur verbatim — possible
through YAML quoting/escapes — can leave the written text identical, see the
counterexample.) -/
theorem c8_write_iff_update :
    (∀ (resolve : Resolver) (text : String) (refs : List Yaml) (ignore : List String),
      (∀ a ∈ ignoreFilter ignore refs, ∃ s, a = Yaml.str s) →
      ((reconcileDoc resolve text refs ignore).newText = none ↔
        (ignoreFilter ignore refs).any (fun a => (updatesRef resolve a).isSome)
          = false)) ∧
    (∀ (resolve : Resolver) (text : String) (refs : List Yaml) (ignore : List String)
        (s repo : String) (rel : Release),
      (∀ a ∈ ignoreFilter ignore refs, ∃ s', a = Yaml.str s') →
      Yaml.str s ∈ ignoreFilter ignore refs →
      updatesRef resolve (Yaml.str s) = some (repo, rel) →
      (∀ b ∈ ignoreFilter ignore refs, b ≠ Yaml.str s →
        updatesRef resolve b = none) →
      (ignoreFilter ignore refs).Nodup →
      containsSub s.data text.data = true →
      ∃ t, (reconcileDoc resolve text refs ignore).newText = some t ∧ t ≠ text) := by
  constructor
  · intro resolve text refs ignore hstr
    obtain ⟨_, _, hnew, _⟩ := reconcileDoc_spec resolve text refs ignore hstr
    rw [hnew]
    cases hany : (ignoreFilter ignore refs).any
        (fun a => (updatesRef resolve a).isSome) <;> simp [hany]
  · intro resolve text refs ignore s repo rel hstr hmem hu hothers hnodup hocc
    obtain ⟨_, _, hnew, _⟩ := reconcileDoc_spec resolve text refs ignore hstr
    have hany : (ignoreFilter ignore refs).any
        (fun a => (updatesRef resolve a).isSome) = true :=
      List.any_eq_true.mpr ⟨Yaml.str s, hmem, by rw [hu]; rfl⟩
    have htext := reconcileRefs_single_update resolve (ignoreFilter ignore refs)
      ⟨text, false, ∅, []⟩ s repo rel hstr hmem hu hothers hnodup
    refine ⟨strReplace text s (repo ++ "@" ++ rel.tag_name), ?_, ?_⟩
    · rw [hnew]
      simp only [hany, if_true]
      exact congrArg some htext
    · obtain ⟨ver, hs, _, hne⟩ := updatesRef_split hu
      exact strReplace_ne (splitRef_ne_empty hs) (fun h => hne h.symm) hocc

/-- C8 amended, witness: a single rewritten reference occurring verbatim in
the text yields a written text different from the original. -/
theorem c8_write_iff_update_witness :
    ∃ t, (reconcileDoc resolveAB "uses: a/b@v1\n" [Yaml.str "a/b@v1"] []).newText
        = some t ∧ t ≠ "uses: a/b@v1\n" := by
  refine c8_write_iff_update.2 resolveAB "uses: a/b@v1\n" [Yaml.str "a/b@v1"] []
    "a/b@v1" "a/b" relV2 ?_ ?_ rfl ?_ ?_ rfl
  · intro a ha
    rw [show ignoreFilter [] [Yaml.str "a/b@v1"] = [Yaml.str "a/b@v1"] from rfl] at ha
    exact ⟨"a/b@v1", List.mem_singleton.mp ha⟩
  · rw [show ignoreFilter [] [Yaml.str "a/b@v1"] = [Yaml.str "a/b@v1"] from rfl]
    simp
  · intro b hb hbne
    rw [show ignoreFilter [] [Yaml.str "a/b@v1"] = [Yaml.str "a/b@v1"] from rfl] at hb
    exact absurd (List.mem_singleton.mp hb) hbne
  · rw [show ignoreFilter [] [Yaml.str "a/b@v1"] = [Yaml.str "a/b@v1"] from rfl]
    simp

/-! ## Claim C9 -/

/-- C9 counterexample.  Two runs on the same document, the same resolver and
the same deduplicated reference set, differing only in iteration order,
produce different final texts: processing `a/b@v1` first also corrupts the
overlapping occurrence of `a/b@v1x`, processing `a/b@v1x` first does not. -/
theorem c9_order_counterexample :
    List.Perm [Yaml.str "a/b@v1", Yaml.str "a/b@v1x"]
      [Yaml.str "a/b@v1x", Yaml.str "a/b@v1"] ∧
    (reconcileDoc resolveAB "- uses: a/b@v1x\n- uses: a/b@v1\n"
        [Yaml.str "a/b@v1", Yaml.str "a/b@v1x"] []).newText
      = some "- uses: a/b@v2x\n- uses: a/b@v2\n" ∧
    (reconcileDoc resolveAB "- uses: a/b@v1x\n- uses: a/b@v1\n"
        [Yaml.str "a/b@v1x", Yaml.str "a/b@v1"] []).newText
      = some "- uses: a/b@v2\n- uses: a/b@v2\n" ∧
    (reconcileDoc resolveAB "- uses: a/b@v1x\n- uses: a/b@v1\n"
        [Yaml.str "a/b@v1", Yaml.str "a/b@v1x"] []).newText
      ≠ (reconcileDoc resolveAB "- uses: a/b@v1x\n- uses: a/b@v1\n"
        [Yaml.str "a/b@v1x", Yaml.str "a/b@v1"] []).newText :=
  ⟨List.Perm.swap (Yaml.str "a/b@v1x") (Yaml.str "a/b@v1") [], rfl, rfl, by decide⟩

/-- C9 amended: for string-reference runs, the changed flag and the
change-note set are independent of the processing order of the deduplicated
reference set (and no abort occurs); the final document text is not
order-independent in general (see the counterexample). -/
theorem c9_order_insensitive_flag_notes :
    ∀ (resolve : Resolver) (text : String) (ignore : List String)
      (refs₁ refs₂ : List Yaml),
      List.Perm refs₁ refs₂ →
      (∀ a ∈ refs₁, ∃ s, a = Yaml.str s) →
      (reconcileDoc resolve text refs₁ ignore).changed
        = (reconcileDoc resolve text refs₂ ignore).changed ∧
      (reconcileDoc resolve text refs₁ ignore).notes
        = (reconcileDoc resolve text refs₂ ignore).notes ∧
      (reconcileDoc resolve text refs₁ ignore).aborted = false ∧
      (reconcileDoc resolve text refs₂ ignore).aborted = false := by
  intro resolve text ignore refs₁ refs₂ hperm hstr
  have hstr₂ : ∀ a ∈ refs₂, ∃ s, a = Yaml.str s :=
    fun a ha => hstr a (hperm.mem_iff.mpr ha)
  have hf₁ : ∀ a ∈ ignoreFilter ignore refs₁, ∃ s, a = Yaml.str s :=
    fun a ha => hstr a (mem_ignoreFilter.mp ha).1
  have hf₂ : ∀ a ∈ ignoreFilter ignore refs₂, ∃ s, a = Yaml.str s :=
    fun a ha => hstr₂ a (mem_ignoreFilter.mp ha).1
  have hpermf : List.Perm (ignoreFilter ignore refs₁) (ignoreFilter ignore refs₂) :=
    hperm.filter _
  obtain ⟨ha₁, hc₁, _, _⟩ := reconcileDoc_spec resolve text refs₁ ignore hf₁
  obtain ⟨ha₂, hc₂, _, _⟩ := reconcileDoc_spec resolve text refs₂ ignore hf₂
  have hany : ∀ (l₁ l₂ : List Yaml) (p : Yaml → Bool), List.Perm l₁ l₂ →
      l₁.any p = l₂.any p := by
    intro l₁ l₂ p hp
    cases h1 : l₁.any p <;> cases h2 : l₂.any p
    · rfl
    · obtain ⟨x, hx, hpx⟩ := List.any_eq_true.mp h2
      have h3 : l₁.any p = true := List.any_eq_true.mpr ⟨x, hp.mem_iff.mpr hx, hpx⟩
      rw [h1] at h3
      exact absurd h3 (by simp)
    · obtain ⟨x, hx, hpx⟩ := List.any_eq_true.mp h1
      have h3 : l₂.any p = true := List.any_eq_true.mpr ⟨x, hp.mem_iff.mp hx, hpx⟩
      rw [h2] at h3
      exact absurd h3 (by simp)
    · rfl
  refine ⟨?_, ?_, ha₁, ha₂⟩
  · rw [hc₁, hc₂]
    exact hany _ _ _ hpermf
  · rw [reconcileDoc_notes_image resolve text refs₁ ignore hf₁,
      reconcileDoc_notes_image resolve text refs₂ ignore hf₂]
    congr 1
    have hpermu : List.Perm (upgradedRepos resolve (ignoreFilter ignore refs₁))
        (upgradedRepos resolve (ignoreFilter ignore refs₂)) :=
      (hpermf.filterMap _).map _
    apply Finset.ext
    intro r
    rw [List.mem_toFinset, List.mem_toFinset]
    exact hpermu.mem_iff

/-- C9 amended, witness: two orders of a two-reference set give the same flag
and note set, with no abort. -/
theorem c9_order_insensitive_witness :
    (reconcileDoc resolveAB "uses: a/b@v1\nuses: c/d@v1\n"
        [Yaml.str "a/b@v1", Yaml.str "c/d@v1"] []).changed
      = (reconcileDoc resolveAB "uses: a/b@v1\nuses: c/d@v1\n"
        [Yaml.str "c/d@v1", Yaml.str "a/b@v1"] []).changed ∧
    (reconcileDoc resolveAB "uses: a/b@v1\nuses: c/d@v1\n"
        [Yaml.str "a/b@v1", Yaml.str "c/d@v1"] []).notes
      = (reconcileDoc resolveAB "uses: a/b@v1\nuses: c/d@v1\n"
        [Yaml.str "c/d@v1", Yaml.str "a/b@v1"] []).notes ∧
    (reconcileDoc resolveAB "uses: a/b@v1\nuses: c/d@v1\n"
        [Yaml.str "a/b@v1", Yaml.str "c/d@v1"] []).aborted = false ∧
    (reconcileDoc resolveAB "uses: a/b@v1\nuses: c/d@v1\n"
        [Yaml.str "c/d@v1", Yaml.str "a/b@v1"] []).aborted = false := by
  refine c9_order_insensitive_flag_notes resolveAB "uses: a/b@v1\nuses: c/d@v1\n"
    [] [Yaml.str "a/b@v1", Yaml.str "c/d@v1"]
    [Yaml.str "c/d@v1", Yaml.str "a/b@v1"]
    (List.Perm.swap (Yaml.str "c/d@v1") (Yaml.str "a/b@v1") []) ?_
  intro a ha
  rcases List.mem_cons.mp ha with rfl | ha2
  · exact ⟨"a/b@v1", rfl⟩
  · rcases List.mem_cons.mp ha2 with rfl | ha3
    · exact ⟨"c/d@v1", rfl⟩
    · exact absurd ha3 (List.not_mem_nil a)

/-! ## Claim C7 -/

/-- C7: exit code 1 exactly when the workflow-listing call returns non-200
(in which case no document is processed) or when changes exist but pull
requests are skipped; exit code 0 when no workflows are found, when nothing
changed, or when the changes are committed and submitted as a pull request.
Exit codes are the `SystemExit` codes of the run; the working-tree check and
the pull-request creation are external collaborators modelled from the
spec. -/
theorem c7_exit_codes (resolve : Resolver) (ignore : List String) (skipPR : Bool)
    (status : Nat) (docs : List WorkflowDoc) :
    (status ≠ 200 →
      runModel resolve ignore skipPR status docs = (RunOutcome.exit1, [])) ∧
    (status = 200 → docs = [] →
      runModel resolve ignore skipPR status docs = (RunOutcome.exit0, [])) ∧
    ((runModel resolve ignore skipPR status docs).1 = RunOutcome.exit1 ↔
      status ≠ 200 ∨ (docs ≠ [] ∧ docs.any (changedDoc resolve ignore) = true ∧
        skipPR = true)) ∧
    ((runModel resolve ignore skipPR status docs).1 = RunOutcome.exit0 ↔
      status = 200 ∧ (docs = [] ∨ docs.any (changedDoc resolve ignore) = false ∨
        skipPR = false)) := by
  unfold runModel
  by_cases hst : status = 200
  · by_cases hd : docs.isEmpty = true
    · have hdocs : docs = [] := List.isEmpty_iff.mp hd
      subst hdocs
      simp [hst]
    · have hdocs : docs ≠ [] := by
        intro h
        rw [h] at hd
        exact hd rfl
      cases hch : docs.any (changedDoc resolve ignore)
      · simp [hst, hd, hch, hdocs]
      · cases hsk : skipPR
        · simp [hst, hd, hch, hdocs, hsk]
        · simp [hst, hd, hch, hdocs, hsk]
  · simp [hst]

/-- C7, witness: a failed listing (status 500) exits with code 1 before any
document is processed. -/
theorem c7_exit_codes_witness :
    (500 : Nat) ≠ 200 ∧
    runModel resolveAB [] true 500 [] = (RunOutcome.exit1, []) :=
  ⟨by decide, (c7_exit_codes resolveAB [] true 500 []).1 (by decide)⟩

/-! ## Claim C10 -/

/-- C10 counterexample.  The claim says every status-200 body lacking the
well-formed shape (a `workflows` list of objects with a `path` field) raises
an unhandled error.  But Python iteration accepts more than lists: with body
`{"workflows": {}}` the comprehension iterates the empty mapping's keys and
returns `[]` — no error is raised (and the run then terminates with exit
code 0 through the empty-workflow-list branch). -/
theorem c10_degenerate_shape_counterexample :
    get_workflow_paths 200 (Json.obj [("workflows", Json.obj [])])
      = ListingResult.paths [] ∧
    get_workflow_paths 200 (Json.obj [("workflows", Json.obj [])])
      ≠ ListingResult.unhandled := by
  refine ⟨rfl, ?_⟩
  intro h
  rw [show get_workflow_paths 200 (Json.obj [("workflows", Json.obj [])])
      = ListingResult.paths [] from rfl] at h
  exact ListingResult.noConfusion h

/-- C10 amended: non-200 always logs an error and exits with code 1 before
touching the body; a 200 body whose `workflows` member is a list of values
each carrying a `path` member returns exactly those path values; a 200 body
that is not a mapping, or lacks `workflows`, or whose `workflows` value is a
non-iterable scalar, raises an unhandled error; but degenerate iterable
shapes (such as a mapping under `workflows`, whose keys are iterated) need
not raise. -/
theorem c10_listing_spec :
    (∀ (status : Nat) (body : Json), status ≠ 200 →
      get_workflow_paths status body = ListingResult.fatal) ∧
    (∀ (fs : List (String × Json)) (ws : List Json),
      jsonField fs "workflows" = some (Json.arr ws) →
      (∀ w ∈ ws, (subscript w "path").isSome) →
      get_workflow_paths 200 (Json.obj fs)
        = ListingResult.paths (ws.filterMap fun w => subscript w "path")) ∧
    (∀ fs : List (String × Json), jsonField fs "workflows" = none →
      get_workflow_paths 200 (Json.obj fs) = ListingResult.unhandled) ∧
    (∀ body : Json, (∀ fs, body ≠ Json.obj fs) →
      get_workflow_paths 200 body = ListingResult.unhandled) ∧
    (∀ fs : List (String × Json), jsonField fs "workflows" = some Json.null →
      get_workflow_paths 200 (Json.obj fs) = ListingResult.unhandled) := by
  refine ⟨?_, ?_, ?_, ?_, ?_⟩
  · intro status body h
    unfold get_workflow_paths
    rw [if_neg h]
  · intro fs ws hws hpaths
    unfold get_workflow_paths
    rw [if_pos rfl]
    have h1 : subscript (Json.obj fs) "workflows" = some (Json.arr ws) := hws
    simp only [h1, pyIter]
    rw [collectPaths_eq ws hpaths]
  · intro fs h
    unfold get_workflow_paths
    rw [if_pos rfl]
    have h1 : subscript (Json.obj fs) "workflows" = none := h
    simp only [h1]
  · intro body h
    unfold get_workflow_paths
    rw [if_pos rfl]
    have h1 : subscript body "workflows" = none := by
      cases body with
      | obj fs => exact absurd rfl (h fs)
      | null => rfl
      | bool b => rfl
      | num n => rfl
      | str s => rfl
      | arr xs => rfl
    simp only [h1]
  · intro fs h
    unfold get_workflow_paths
    rw [if_pos rfl]
    have h1 : subscript (Json.obj fs) "workflows" = some Json.null := h
    simp only [h1, pyIter]

/-- C10 amended, witness: a status-500 response is fatal (exit code 1). -/
theorem c10_listing_spec_witness :
    (500 : Nat) ≠ 200 ∧ get_workflow_paths 500 Json.null = ListingResult.fatal :=
  ⟨by decide, c10_listing_spec.1 500 Json.null (by decide)⟩

end ActionUpdater
